import Mathlib

/-!
# Verification of the Mel filterbank (`src/melFB.cpp`)

Shallow embedding of the filterbank construction (`MelFb::MelFb`,
`MelFb::calcMelFB`) and application (`MelFb::applyMelFB`) over the reals.

Modelling conventions:
* 32-bit floats are modelled as real numbers; all arithmetic is exact.
* C's `roundf` (round half away from zero) is `croundI` below.
* Arrays are modelled as total functions; the C code only backs indices
  `[0, fbSize)` of every weight row and spectrum frame with memory, and the
  out-of-bounds accesses `applyMelFB` can perform are analysed separately.
* The fallible constructor (`throw` on bad parameters) is modelled with
  `Except String`.
-/

open scoped Classical

noncomputable section

namespace MelFB

/-- `#define SAMPLE_RATE 8000.0f` (melFB.cpp line 29). -/
def SAMPLE_RATE : ℝ := 8000

/-- `MelFb::linToMel` (line 196): `2595.0f * (logf(1.0f + linFreq / 700.0f) / logf(10.0f))`. -/
def linToMel (linFreq : ℝ) : ℝ :=
  2595 * (Real.log (1 + linFreq / 700) / Real.log 10)

/-- `MelFb::melToLin` (line 201): `700.0f * (powf(10.0f, (melFreq / 2595.0f)) - 1.0f)`. -/
def melToLin (melFreq : ℝ) : ℝ :=
  700 * ((10 : ℝ) ^ (melFreq / 2595) - 1)

/-- C's `roundf`: round half away from zero, as an integer. -/
def croundI (x : ℝ) : ℤ :=
  if x < 0 then -round (-x) else round x

/-- C's `roundf` as a real-valued (integer-valued) function, the value actually
stored in the 32-bit float arrays. -/
def croundf (x : ℝ) : ℝ := (croundI x : ℝ)

/-- `int fftOrder = (int)ceil(logf((float)fftSize)/logf(2.0f));` (line 42). -/
def fftOrder (fftSize : ℕ) : ℤ :=
  ⌈Real.log fftSize / Real.log 2⌉

/-- `fbSize = (1 << fftOrder)/2;` (line 43). -/
def fbSizeOf (fftSize : ℕ) : ℕ :=
  2 ^ (fftOrder fftSize).toNat / 2

/-- `Fw32f binSize = SAMPLE_RATE/(fbSize*2.0f-1);` (line 77). -/
def binSize (fftSize : ℕ) : ℝ :=
  SAMPLE_RATE / ((fbSizeOf fftSize : ℝ) * 2 - 1)

/-- `Fw32f delta = (linToMel(hiCut) - linToMel(loCut)) / (numFilterBanks + 1);` (line 85). -/
def delta (nb : ℕ) (lo hi : ℤ) : ℝ :=
  (linToMel hi - linToMel lo) / ((nb : ℝ) + 1)

/-- The running `melCenter` value at loop iteration `i` (lines 93-98):
`melCenter` starts at `linToMel(loCut)` and is incremented by `delta` at the
top of each iteration. -/
def melCenter (nb : ℕ) (lo hi : ℤ) : ℕ → ℝ
  | 0 => linToMel lo + delta nb lo hi
  | i + 1 => melCenter nb lo hi i + delta nb lo hi

/-- `fCenter[i] = roundf(melToLin(melCenter)/binSize);` (line 100), as the
integer it rounds to. -/
def fCenterI (fft nb : ℕ) (lo hi : ℤ) (i : ℕ) : ℤ :=
  croundI (melToLin (melCenter nb lo hi i) / binSize fft)

/-- The lower bound array `fLo`: `fLo[0] = roundf(loCut/binSize)` (line 94) and
`fLo[i+1] = fCenter[i]` (line 107), as integers. -/
def fLoI (fft nb : ℕ) (lo hi : ℤ) : ℕ → ℤ
  | 0 => croundI ((lo : ℝ) / binSize fft)
  | i + 1 => fCenterI fft nb lo hi i

/-- The stored (float) value of `fLo[i]`. -/
def fLoR (fft nb : ℕ) (lo hi : ℤ) (i : ℕ) : ℝ :=
  (fLoI fft nb lo hi i : ℝ)

/-- The upper bound array `fHi`: `fHi[i-1] = fCenter[i]` (line 104) for the
first `numFilterBanks - 1` entries, and `fHi[numFilterBanks-1] = hiCut/binSize`
(line 109, not rounded). -/
def fHiR (fft nb : ℕ) (lo hi : ℤ) (i : ℕ) : ℝ :=
  if i = nb - 1 then (hi : ℝ) / binSize fft else (fCenterI fft nb lo hi (i + 1) : ℝ)

/-- The running accumulator `x` of the triangle loop (lines 112-128), before
bin `k` of a band with bounds `L ≤ C ≤ H` is processed: `x` starts at `0` for
each band, gains `1/(C-L)` after each bin in `(L, C]` and loses `1/(H-C)`
after each bin in `(C, H]`. -/
def bankX (L C H : ℝ) : ℕ → ℝ
  | 0 => 0
  | k + 1 =>
      bankX L C H k +
        (if L < (k : ℝ) ∧ (k : ℝ) ≤ C then 1 / (C - L)
         else if C < (k : ℝ) ∧ (k : ℝ) ≤ H then -(1 / (H - C))
         else 0)

/-- The weight `fbank[band][k]` written by the triangle loop (lines 115-127):
the current `x` on bins inside `(L, C]` or `(C, H]`, and `0` elsewhere. -/
def bankW (L C H : ℝ) (k : ℕ) : ℝ :=
  if L < (k : ℝ) ∧ (k : ℝ) ≤ C then bankX L C H k
  else if C < (k : ℝ) ∧ (k : ℝ) ≤ H then bankX L C H k
  else 0

/-- The state built by `MelFb::calcMelFB` for an accepted configuration. -/
structure MelFb where
  numFilterBanks : ℕ
  fbSize : ℕ
  loCut : ℤ
  hiCut : ℤ
  fLo : ℕ → ℝ
  fHi : ℕ → ℝ
  fbank : ℕ → ℕ → ℝ

/-- `MelFb::calcMelFB` (lines 73-134): the filterbank state it computes. -/
def calcMelFB (fft nb : ℕ) (lo hi : ℤ) : MelFb where
  numFilterBanks := nb
  fbSize := fbSizeOf fft
  loCut := lo
  hiCut := hi
  fLo := fLoR fft nb lo hi
  fHi := fHiR fft nb lo hi
  fbank := fun band k =>
    bankW (fLoR fft nb lo hi band) (fCenterI fft nb lo hi band : ℝ)
      (fHiR fft nb lo hi band) k

/-- `MelFb::MelFb` (lines 37-56): checks `hiCut > SAMPLE_RATE` (throwing
`"HiCut Parameter too high"`) and `numFilterBanks == 0` (throwing
`"Number of Filterbanks is zero"`), then builds the filterbank. -/
def construct (fft nb : ℕ) (lo hi : ℤ) : Except String MelFb :=
  if SAMPLE_RATE < (hi : ℝ) then .error "HiCut Parameter too high"
  else if nb = 0 then .error "Number of Filterbanks is zero"
  else .ok (calcMelFB fft nb lo hi)

/-- The spectrogram input of `MelFb::applyMelFB`. Each frame is modelled as a
total function on `ℤ`; the STFT producer only backs indices `[0, fbSize)`. -/
structure Stft where
  NoOfWindows : ℕ
  spectrogramm : ℕ → ℤ → ℝ

/-- `int maxFilterSize = (int)(ceil(fHi[numFilterBanks-1]) - floor(fLo[numFilterBanks-1]));`
(line 159). -/
def maxFilterSize (fb : MelFb) : ℤ :=
  ⌈fb.fHi (fb.numFilterBanks - 1)⌉ - ⌊fb.fLo (fb.numFilterBanks - 1)⌋

/-- `filterSize = (int)(ceil(fHi[band]) - floor(fLo[band]));` (line 170). -/
def filterSize (fb : MelFb) (band : ℕ) : ℤ :=
  ⌈fb.fHi band⌉ - ⌊fb.fLo band⌋

/-- `loF = (int)floor(fLo[band]);` (line 171). -/
def loF (fb : MelFb) (band : ℕ) : ℤ :=
  ⌊fb.fLo band⌋

/-- The read `fbank[band][k]` performed with an `int` index `k`. For
`k ∉ [0, fbSize)` the C code reads out of bounds (see the analysis of the
safety claim); the model extends the row by `0` below index `0` and by the
triangle formula above `fbSize`. -/
def bankRead (fb : MelFb) (band : ℕ) (k : ℤ) : ℝ :=
  if 0 ≤ k then fb.fbank band k.toNat else 0

/-- The value `applyMelFB` stores in `output[window][band]` (lines 170-182):
the first `filterSize` entries of the two zero-filled scratch buffers hold
`spectrogramm[window][loF+j]` and `fbank[band][loF+j]`; after the in-place
multiply, `fwsSum_32f` adds up the first `filterSize` products. -/
def bandSum (fb : MelFb) (stft : Stft) (window band : ℕ) : ℝ :=
  ∑ j ∈ Finset.range (filterSize fb band).toNat,
    stft.spectrogramm window (loF fb band + j) * bankRead fb band (loF fb band + j)

/-- `MelFb::applyMelFB` (lines 137-191) as a transformer of the caller's
output buffer: every cell `(window, band)` with `window < NoOfWindows` and
`band < numFilterBanks` is overwritten with `bandSum`; other cells keep their
previous contents. -/
def applyMelFB (fb : MelFb) (stft : Stft) (output : ℕ → ℕ → ℝ) : ℕ → ℕ → ℝ :=
  fun window band =>
    if window < stft.NoOfWindows ∧ band < fb.numFilterBanks then bandSum fb stft window band
    else output window band

/-- The commented-out dense reference path of `applyMelFB` (lines 139-156):
multiply the full-width spectrum frame by the full-width weight row and sum
all `fbSize` products. -/
def denseBandSum (fb : MelFb) (stft : Stft) (window band : ℕ) : ℝ :=
  ∑ k ∈ Finset.range fb.fbSize,
    stft.spectrogramm window (k : ℤ) * fb.fbank band k

/-! ## Helper lemmas about C rounding -/

theorem croundI_of_nonneg {x : ℝ} (hx : 0 ≤ x) : croundI x = round x := by
  unfold croundI
  rw [if_neg (not_lt.2 hx)]

theorem croundI_eq {x : ℝ} {z : ℤ} (h0 : 0 ≤ x) (h1 : (z : ℝ) - 1 / 2 ≤ x)
    (h2 : x < (z : ℝ) + 1 / 2) : croundI x = z := by
  rw [croundI_of_nonneg h0, round_eq, Int.floor_eq_iff]
  constructor <;> linarith

theorem round_mono : Monotone (round : ℝ → ℤ) := by
  intro x y h
  rw [round_eq, round_eq]
  exact Int.floor_mono (by linarith)

theorem croundI_mono : Monotone croundI := by
  intro x y h
  unfold croundI
  by_cases hx : x < 0
  · by_cases hy : y < 0
    · rw [if_pos hx, if_pos hy, neg_le_neg_iff]
      exact round_mono (by linarith)
    · rw [if_pos hx, if_neg hy]
      have h1 : round (0 : ℝ) ≤ round (-x) := round_mono (by linarith)
      have h2 : round (0 : ℝ) ≤ round y := round_mono (by linarith)
      rw [round_zero] at h1 h2
      omega
  · rw [if_neg hx, if_neg (by intro hy; exact hx (lt_of_le_of_lt h hy))]
    exact round_mono h

theorem abs_croundf_sub (x : ℝ) : |croundf x - x| ≤ 1 / 2 := by
  unfold croundf croundI
  by_cases hx : x < 0
  · rw [if_pos hx]
    have h := abs_sub_round (-x)
    rw [abs_sub_comm] at h
    push_cast
    calc |-(round (-x) : ℝ) - x| = |(round (-x) : ℝ) - -x| := by rw [← abs_neg]; ring_nf
    _ ≤ 1 / 2 := h
  · rw [if_neg hx]
    have h := abs_sub_round x
    rwa [abs_sub_comm] at h

theorem croundI_nonneg {x : ℝ} (hx : 0 ≤ x) : 0 ≤ croundI x := by
  have := croundI_mono hx
  rwa [show croundI 0 = 0 by rw [croundI_of_nonneg le_rfl, round_zero]] at this

/-! ## Helper lemmas about the frequency maps -/

theorem log_ten_pos : (0 : ℝ) < Real.log 10 :=
  Real.log_pos (by norm_num)

/-- `10 ^ (log x / log 10) = x` for positive `x`; the base-10 antilog of the
base-10 log. -/
theorem rpow_log_div_log {x : ℝ} (hx : 0 < x) :
    (10 : ℝ) ^ (Real.log x / Real.log 10) = x := by
  rw [Real.rpow_def_of_pos (by norm_num : (0 : ℝ) < 10),
    mul_div_cancel₀ _ (ne_of_gt log_ten_pos), Real.exp_log hx]

theorem melToLin_linToMel {f : ℝ} (hf : 0 ≤ f) : melToLin (linToMel f) = f := by
  unfold melToLin linToMel
  have h700 : (0 : ℝ) < 1 + f / 700 := by linarith
  rw [mul_div_cancel_left₀ _ (by norm_num : (2595 : ℝ) ≠ 0), rpow_log_div_log h700]
  ring

theorem linToMel_lt_linToMel {x y : ℝ} (hx : 0 ≤ x) (hxy : x < y) :
    linToMel x < linToMel y := by
  unfold linToMel
  have h1 : (0 : ℝ) < 1 + x / 700 := by linarith
  have h2 : Real.log (1 + x / 700) < Real.log (1 + y / 700) :=
    Real.log_lt_log h1 (by linarith)
  have h3 : Real.log (1 + x / 700) / Real.log 10 < Real.log (1 + y / 700) / Real.log 10 :=
    (div_lt_div_iff_of_pos_right log_ten_pos).2 h2
  linarith

theorem melToLin_lt_melToLin {x y : ℝ} (hxy : x < y) : melToLin x < melToLin y := by
  unfold melToLin
  have : (10 : ℝ) ^ (x / 2595) < (10 : ℝ) ^ (y / 2595) := by
    rw [Real.rpow_lt_rpow_left_iff (by norm_num : (1 : ℝ) < 10)]
    linarith
  linarith

theorem melToLin_le_melToLin {x y : ℝ} (hxy : x ≤ y) : melToLin x ≤ melToLin y := by
  rcases eq_or_lt_of_le hxy with h | h
  · rw [h]
  · exact le_of_lt (melToLin_lt_melToLin h)

theorem melToLin_nonneg {x : ℝ} (hx : 0 ≤ x) : 0 ≤ melToLin x := by
  have h := melToLin_le_melToLin hx
  rw [show melToLin 0 = 0 by unfold melToLin; rw [zero_div, Real.rpow_zero]; ring] at h
  exact h

/-! ## Closed form of the triangle loop

For a band whose lower bound and centre are the integers `l < c` (as produced
by the rounding in `calcMelFB`), the running accumulator `x` of the loop has a
closed form on each of the three regions of bins. -/

theorem bankX_of_le {l c : ℕ} {H : ℝ} (hlc : l ≤ c) :
    ∀ {k : ℕ}, k ≤ l + 1 → bankX (l : ℝ) (c : ℝ) H k = 0 := by
  intro k
  induction k with
  | zero => intro _; simp [bankX]
  | succ k ih =>
      intro hk
      have hkl : k ≤ l := by omega
      rw [bankX, ih (by omega), if_neg, if_neg]
      · ring
      · rintro ⟨h1, _⟩
        have := Nat.cast_lt.mp h1
        omega
      · rintro ⟨h1, _⟩
        have := Nat.cast_lt.mp h1
        omega

theorem bankX_rise {l c : ℕ} {H : ℝ} (hlc : l < c) :
    ∀ {d : ℕ}, d ≤ c - l → bankX (l : ℝ) (c : ℝ) H (l + 1 + d) = (d : ℝ) / ((c : ℝ) - l) := by
  intro d
  induction d with
  | zero => intro _; simpa using bankX_of_le (le_of_lt hlc) (le_refl (l + 1))
  | succ d ih =>
      intro hd
      have hkc : l + 1 + d ≤ c := by omega
      have hstep : l + 1 + (d + 1) = (l + 1 + d) + 1 := by omega
      rw [hstep, bankX, ih (by omega), if_pos]
      · rw [div_add_div_same]
        push_cast
        ring
      · constructor
        · exact_mod_cast Nat.lt_of_lt_of_le (Nat.lt_succ_self l) (by omega)
        · exact_mod_cast hkc

theorem bankX_peak {l c : ℕ} {H : ℝ} (hlc : l < c) :
    bankX (l : ℝ) (c : ℝ) H (c + 1) = 1 := by
  have h1 : l + 1 + (c - l) = c + 1 := by omega
  have h2 := bankX_rise (H := H) hlc (le_refl (c - l))
  rw [h1] at h2
  rw [h2, Nat.cast_sub (le_of_lt hlc)]
  exact div_self (by
    have : (l : ℝ) < c := Nat.cast_lt.mpr hlc
    linarith)

theorem bankX_fall {l c : ℕ} {H : ℝ} (hlc : l < c) :
    ∀ {d : ℕ}, (c : ℝ) + d ≤ H →
      bankX (l : ℝ) (c : ℝ) H (c + 1 + d) = 1 - (d : ℝ) / (H - c) := by
  intro d
  induction d with
  | zero => intro _; simpa using bankX_peak (H := H) hlc
  | succ d ih =>
      intro hd
      have hd' : (c : ℝ) + d ≤ H := by push_cast at hd ⊢; linarith
      have hstep : c + 1 + (d + 1) = (c + 1 + d) + 1 := by omega
      rw [hstep, bankX, ih hd', if_neg, if_pos]
      · push_cast
        rw [← div_add_div_same]
        ring
      · constructor
        · exact_mod_cast Nat.lt_of_lt_of_le (Nat.lt_succ_self c) (by omega)
        · push_cast at hd ⊢; linarith
      · rintro ⟨_, h2⟩
        have : (c + 1 + d : ℕ) ≤ c := by exact_mod_cast h2
        omega

theorem bankW_zero_left {l c : ℕ} {H : ℝ} {k : ℕ} (hlc : l ≤ c) (hk : k ≤ l) :
    bankW (l : ℝ) (c : ℝ) H k = 0 := by
  rw [bankW, if_neg, if_neg]
  · rintro ⟨h1, _⟩
    have := Nat.cast_lt.mp h1
    omega
  · rintro ⟨h1, _⟩
    have := Nat.cast_lt.mp h1
    omega

theorem bankW_zero_right {l c : ℕ} {H : ℝ} {k : ℕ} (hcH : (c : ℝ) ≤ H)
    (hk : H < (k : ℝ)) : bankW (l : ℝ) (c : ℝ) H k = 0 := by
  rw [bankW, if_neg, if_neg]
  · rintro ⟨_, h2⟩
    linarith
  · rintro ⟨_, h2⟩
    linarith

theorem bankW_rise {l c : ℕ} {H : ℝ} {k : ℕ} (hlc : l < c) (h1 : l < k) (h2 : k ≤ c) :
    bankW (l : ℝ) (c : ℝ) H k = ((k : ℝ) - l - 1) / ((c : ℝ) - l) := by
  have hk : l + 1 + (k - l - 1) = k := by omega
  rw [bankW, if_pos ⟨Nat.cast_lt.mpr h1, Nat.cast_le.mpr h2⟩, ← hk,
    bankX_rise hlc (by omega)]
  congr 1
  push_cast [Nat.cast_sub (by omega : l + 1 ≤ k)]
  ring

theorem bankW_fall {l c : ℕ} {H : ℝ} {k : ℕ} (hlc : l < c) (h1 : c < k)
    (h2 : (k : ℝ) ≤ H) : bankW (l : ℝ) (c : ℝ) H k = 1 - ((k : ℝ) - c - 1) / (H - c) := by
  have hk : c + 1 + (k - c - 1) = k := by omega
  have hcast : ((k - c - 1 : ℕ) : ℝ) = (k : ℝ) - c - 1 := by
    rw [Nat.cast_sub (by omega : 1 ≤ k - c), Nat.cast_sub (by omega : c ≤ k)]
    push_cast
    ring
  have hd : (c : ℝ) + (k - c - 1 : ℕ) ≤ H := by
    rw [hcast]
    linarith
  rw [bankW, if_neg, if_pos ⟨Nat.cast_lt.mpr h1, h2⟩]
  · rw [← hk, bankX_fall hlc hd]
    rw [hcast, hk]
  · rintro ⟨_, hbad⟩
    exact absurd (Nat.cast_le.mp hbad) (by omega)

/-! ## The FFT-order computation -/

/-- Over the reals, `ceil(log(fftSize)/log(2))` is exactly `Nat.clog 2 fftSize`. -/
theorem fftOrder_eq_clog {n : ℕ} (hn : 1 ≤ n) : fftOrder n = Nat.clog 2 n := by
  unfold fftOrder
  have hlog2 : (0 : ℝ) < Real.log 2 := Real.log_pos (by norm_num)
  rw [Int.ceil_eq_iff]
  constructor
  · rcases Nat.lt_or_ge n 2 with h2 | h2
    · have hn1 : n = 1 := by omega
      subst hn1
      rw [Nat.clog_one_right]
      simp
    · have hc1 : 1 ≤ Nat.clog 2 n := Nat.clog_pos (by norm_num) h2
      have hpow : 2 ^ (Nat.clog 2 n - 1) < n := Nat.pow_pred_clog_lt_self (by norm_num) (by omega)
      have hlt : Real.log ((2 : ℝ) ^ (Nat.clog 2 n - 1)) < Real.log n := by
        apply Real.log_lt_log (by positivity)
        exact_mod_cast hpow
      rw [Real.log_pow] at hlt
      have : ((Nat.clog 2 n - 1 : ℕ) : ℝ) < Real.log n / Real.log 2 :=
        (lt_div_iff₀ hlog2).2 hlt
      rw [Nat.cast_sub hc1] at this
      push_cast at this ⊢
      linarith
  · have hpow : n ≤ 2 ^ Nat.clog 2 n := Nat.le_pow_clog (by norm_num) n
    have hle : Real.log n ≤ Real.log ((2 : ℝ) ^ Nat.clog 2 n) := by
      rw [Real.log_le_log_iff (by exact_mod_cast hn) (by positivity)]
      exact_mod_cast hpow
    rw [Real.log_pow] at hle
    rw [div_le_iff₀ hlog2]
    push_cast
    linarith

theorem fbSizeOf_eq_clog {n : ℕ} (hn : 1 ≤ n) : fbSizeOf n = 2 ^ Nat.clog 2 n / 2 := by
  unfold fbSizeOf
  rw [fftOrder_eq_clog hn, Int.toNat_natCast]

theorem one_le_fbSizeOf {n : ℕ} (hn : 2 ≤ n) : 1 ≤ fbSizeOf n := by
  rw [fbSizeOf_eq_clog (by omega)]
  have h1 : 1 ≤ Nat.clog 2 n := Nat.clog_pos (by norm_num) hn
  have h2 : 2 ≤ 2 ^ Nat.clog 2 n := by
    calc 2 = 2 ^ 1 := (pow_one 2).symm
    _ ≤ 2 ^ Nat.clog 2 n := Nat.pow_le_pow_right (by norm_num) h1
  omega

theorem binSize_pos {n : ℕ} (hn : 2 ≤ n) : 0 < binSize n := by
  unfold binSize SAMPLE_RATE
  apply div_pos (by norm_num)
  have h1 : (1 : ℝ) ≤ (fbSizeOf n : ℝ) := by exact_mod_cast one_le_fbSizeOf hn
  linarith

/-! ## The centre-frequency recurrence -/

/-- The running `melCenter` after `i + 1` increments, in closed form. -/
theorem melCenter_eq (nb : ℕ) (lo hi : ℤ) (i : ℕ) :
    melCenter nb lo hi i = linToMel lo + ((i : ℝ) + 1) * delta nb lo hi := by
  induction i with
  | zero =>
      rw [melCenter]
      push_cast
      ring
  | succ i ih =>
      rw [melCenter, ih]
      push_cast
      ring

/-! ## Evaluation at concrete configurations -/

theorem log_pow_div_log_two (k : ℕ) : Real.log ((2 : ℝ) ^ k) / Real.log 2 = (k : ℝ) := by
  rw [Real.log_pow]
  field_simp

theorem fftOrder_sixteen : fftOrder 16 = 4 := by
  unfold fftOrder
  rw [show ((16 : ℕ) : ℝ) = (2 : ℝ) ^ (4 : ℕ) by norm_num, log_pow_div_log_two]
  norm_num

theorem fbSizeOf_sixteen : fbSizeOf 16 = 8 := by
  unfold fbSizeOf
  rw [fftOrder_sixteen]
  rfl

theorem binSize_sixteen : binSize 16 = 8000 / 15 := by
  unfold binSize SAMPLE_RATE
  rw [fbSizeOf_sixteen]
  norm_num

theorem fftOrder_twofiftysix : fftOrder 256 = 8 := by
  unfold fftOrder
  rw [show ((256 : ℕ) : ℝ) = (2 : ℝ) ^ (8 : ℕ) by norm_num, log_pow_div_log_two]
  norm_num

theorem fbSizeOf_twofiftysix : fbSizeOf 256 = 128 := by
  unfold fbSizeOf
  rw [fftOrder_twofiftysix]
  rfl

theorem binSize_twofiftysix : binSize 256 = 8000 / 255 := by
  unfold binSize SAMPLE_RATE
  rw [fbSizeOf_twofiftysix]
  norm_num

/-- Configuration `(fftSize 16, 1 band, loCut 275, hiCut 3200)`: the single
mel-midpoint maps back to exactly `1250` Hz, because
`(1 + 275/700) * (1 + 3200/700) = (39/14)^2` is a perfect square. -/
theorem melToLin_melCenter_A : melToLin (melCenter 1 275 3200 0) = 1250 := by
  have hc : melCenter 1 275 3200 0 = (linToMel 275 + linToMel 3200) / 2 := by
    rw [melCenter]
    unfold delta
    push_cast
    ring
  rw [hc]
  unfold melToLin linToMel
  have h1 : (1 : ℝ) + 275 / 700 = 39 / 28 := by norm_num
  have h2 : (1 : ℝ) + 3200 / 700 = 39 / 7 := by norm_num
  rw [h1, h2]
  have hsum : Real.log ((39 : ℝ) / 28) + Real.log ((39 : ℝ) / 7) =
      2 * Real.log ((39 : ℝ) / 14) := by
    rw [← Real.log_mul (by norm_num) (by norm_num),
      show (39 / 28 : ℝ) * (39 / 7) = (39 / 14) ^ 2 by norm_num, Real.log_pow]
    norm_num
  have h3 : Real.log ((39 : ℝ) / 28) =
      2 * Real.log ((39 : ℝ) / 14) - Real.log ((39 : ℝ) / 7) := by linarith
  have hexp : (2595 * (Real.log ((39 : ℝ) / 28) / Real.log 10) +
      2595 * (Real.log ((39 : ℝ) / 7) / Real.log 10)) / 2 / 2595 =
      Real.log ((39 : ℝ) / 14) / Real.log 10 := by
    rw [h3]
    ring
  rw [hexp, rpow_log_div_log (by norm_num : (0 : ℝ) < 39 / 14)]
  norm_num

theorem fCenterI_A : fCenterI 16 1 275 3200 0 = 2 := by
  unfold fCenterI
  rw [melToLin_melCenter_A, binSize_sixteen]
  apply croundI_eq <;> norm_num

theorem fLoI_A : fLoI 16 1 275 3200 0 = 1 := by
  show croundI (((275 : ℤ) : ℝ) / binSize 16) = 1
  rw [binSize_sixteen]
  apply croundI_eq <;> norm_num

theorem fHiR_A : fHiR 16 1 275 3200 0 = 6 := by
  unfold fHiR
  rw [if_pos rfl, binSize_sixteen]
  norm_num

theorem fbank_A (k : ℕ) :
    (calcMelFB 16 1 275 3200).fbank 0 k = bankW ((1 : ℕ) : ℝ) ((2 : ℕ) : ℝ) 6 k := by
  show bankW (fLoR 16 1 275 3200 0) ((fCenterI 16 1 275 3200 0 : ℤ) : ℝ)
      (fHiR 16 1 275 3200 0) k = _
  rw [fLoR, fLoI_A, fCenterI_A, fHiR_A]
  norm_num

theorem bankW_A_vals :
    bankW ((1 : ℕ) : ℝ) ((2 : ℕ) : ℝ) 6 0 = 0 ∧
    bankW ((1 : ℕ) : ℝ) ((2 : ℕ) : ℝ) 6 1 = 0 ∧
    bankW ((1 : ℕ) : ℝ) ((2 : ℕ) : ℝ) 6 2 = 0 ∧
    bankW ((1 : ℕ) : ℝ) ((2 : ℕ) : ℝ) 6 3 = 1 ∧
    bankW ((1 : ℕ) : ℝ) ((2 : ℕ) : ℝ) 6 4 = 3 / 4 ∧
    bankW ((1 : ℕ) : ℝ) ((2 : ℕ) : ℝ) 6 5 = 1 / 2 ∧
    bankW ((1 : ℕ) : ℝ) ((2 : ℕ) : ℝ) 6 6 = 1 / 4 ∧
    bankW ((1 : ℕ) : ℝ) ((2 : ℕ) : ℝ) 6 7 = 0 := by
  have h6 : ((2 : ℕ) : ℝ) ≤ 6 := by norm_num
  refine ⟨bankW_zero_left (by norm_num) (by norm_num),
    bankW_zero_left (by norm_num) (by norm_num), ?_, ?_, ?_, ?_, ?_,
    bankW_zero_right h6 (by norm_num)⟩
  · rw [bankW_rise (by norm_num) (by norm_num) (by norm_num)]
    norm_num
  · rw [bankW_fall (by norm_num) (by norm_num) (by norm_num)]
    norm_num
  · rw [bankW_fall (by norm_num) (by norm_num) (by norm_num)]
    norm_num
  · rw [bankW_fall (by norm_num) (by norm_num) (by norm_num)]
    norm_num
  · rw [bankW_fall (by norm_num) (by norm_num) (by norm_num)]
    norm_num

/-- Configuration `(fftSize 256, 2 bands, loCut 2100, hiCut 2100)`: the mel
range is empty, so `delta = 0`. -/
theorem delta_B : delta 2 2100 2100 = 0 := by
  unfold delta
  simp

theorem melToLin_melCenter_B (i : ℕ) : melToLin (melCenter 2 2100 2100 i) = 2100 := by
  have h : melCenter 2 2100 2100 i = linToMel ((2100 : ℤ) : ℝ) := by
    induction i with
    | zero => rw [melCenter, delta_B]; ring
    | succ i ih => rw [melCenter, delta_B, ih]; ring
  rw [h, melToLin_linToMel (by norm_num : (0 : ℝ) ≤ ((2100 : ℤ) : ℝ))]
  norm_num

theorem fCenterI_B (i : ℕ) : fCenterI 256 2 2100 2100 i = 67 := by
  unfold fCenterI
  rw [melToLin_melCenter_B, binSize_twofiftysix]
  apply croundI_eq <;> norm_num

theorem fLoI_B : fLoI 256 2 2100 2100 0 = 67 := by
  show croundI (((2100 : ℤ) : ℝ) / binSize 256) = 67
  rw [binSize_twofiftysix]
  apply croundI_eq <;> norm_num

/-- Configuration `(fftSize 256, 1 band, loCut 0, hiCut 8000)`: accepted by the
constructor (the check is `hiCut > 8000`), yet the last band's unrounded upper
boundary is bin `8000 / (8000/255) = 255`. -/
theorem fLoR_C : fLoR 256 1 0 8000 0 = 0 := by
  have h : fLoI 256 1 0 8000 0 = 0 := by
    show croundI (((0 : ℤ) : ℝ) / binSize 256) = 0
    rw [show ((0 : ℤ) : ℝ) / binSize 256 = 0 by norm_num, croundI_of_nonneg le_rfl,
      round_zero]
  unfold fLoR
  rw [h]
  norm_num

theorem fHiR_C : fHiR 256 1 0 8000 0 = 255 := by
  unfold fHiR
  rw [if_pos rfl, binSize_twofiftysix]
  norm_num

/-! ## Monotonicity of the boundary computation (for `0 ≤ loCut < hiCut`) -/

theorem delta_pos {nb : ℕ} {lo hi : ℤ} (hlo : 0 ≤ lo) (hlohi : lo < hi) :
    0 < delta nb lo hi := by
  unfold delta
  apply div_pos
  · have h := linToMel_lt_linToMel (x := (lo : ℝ)) (y := (hi : ℝ))
      (by exact_mod_cast hlo) (by exact_mod_cast hlohi)
    linarith
  · positivity

theorem melCenter_succ (nb : ℕ) (lo hi : ℤ) (i : ℕ) :
    melCenter nb lo hi (i + 1) = melCenter nb lo hi i + delta nb lo hi := by
  rw [melCenter]

theorem melCenter_gt_lo {nb : ℕ} {lo hi : ℤ} (hlo : 0 ≤ lo) (hlohi : lo < hi) (i : ℕ) :
    linToMel lo < melCenter nb lo hi i := by
  rw [melCenter_eq]
  have hd := @delta_pos nb lo hi hlo hlohi
  have h : 0 < ((i : ℝ) + 1) * delta nb lo hi := by positivity
  linarith

theorem melCenter_lt_hi {nb : ℕ} {lo hi : ℤ} (hlo : 0 ≤ lo) (hlohi : lo < hi) {i : ℕ}
    (hin : i < nb) : melCenter nb lo hi i < linToMel hi := by
  rw [melCenter_eq]
  have hd := @delta_pos nb lo hi hlo hlohi
  have hsum : linToMel lo + ((nb : ℝ) + 1) * delta nb lo hi = linToMel hi := by
    unfold delta
    field_simp
  have hle : (i : ℝ) + 1 ≤ (nb : ℝ) := by exact_mod_cast hin
  nlinarith

theorem melCenter_le_of_le {nb : ℕ} {lo hi : ℤ} (hlo : 0 ≤ lo) (hlohi : lo < hi)
    {i j : ℕ} (hij : i ≤ j) : melCenter nb lo hi i ≤ melCenter nb lo hi j := by
  rw [melCenter_eq, melCenter_eq]
  have hd := @delta_pos nb lo hi hlo hlohi
  have h : (i : ℝ) + 1 ≤ (j : ℝ) + 1 := by
    have : (i : ℝ) ≤ (j : ℝ) := by exact_mod_cast hij
    linarith
  nlinarith

theorem fCenterI_mono {fft nb : ℕ} {lo hi : ℤ} (hfft : 2 ≤ fft) (hlo : 0 ≤ lo)
    (hlohi : lo < hi) {i j : ℕ} (hij : i ≤ j) :
    fCenterI fft nb lo hi i ≤ fCenterI fft nb lo hi j := by
  unfold fCenterI
  apply croundI_mono
  have hb := binSize_pos hfft
  have hm : melToLin (melCenter nb lo hi i) ≤ melToLin (melCenter nb lo hi j) :=
    melToLin_le_melToLin (melCenter_le_of_le hlo hlohi hij)
  gcongr

theorem fLoI_le_fCenterI {fft nb : ℕ} {lo hi : ℤ} (hfft : 2 ≤ fft) (hlo : 0 ≤ lo)
    (hlohi : lo < hi) : ∀ i, fLoI fft nb lo hi i ≤ fCenterI fft nb lo hi i := by
  intro i
  cases i with
  | zero =>
      show croundI ((lo : ℝ) / binSize fft) ≤ _
      unfold fCenterI
      apply croundI_mono
      have hb := binSize_pos hfft
      have hm : (lo : ℝ) ≤ melToLin (melCenter nb lo hi 0) := by
        have h1 := @melCenter_gt_lo nb lo hi hlo hlohi 0
        have h2 := melToLin_lt_melToLin h1
        rw [melToLin_linToMel (by exact_mod_cast hlo : (0 : ℝ) ≤ (lo : ℝ))] at h2
        linarith
      gcongr
  | succ i =>
      show fCenterI fft nb lo hi i ≤ fCenterI fft nb lo hi (i + 1)
      exact fCenterI_mono hfft hlo hlohi (Nat.le_succ i)

/-! ## Claim theorems -/

/-- **C1** (amended). For every configuration accepted by construction and
every band whose stored integer bounds satisfy `loBin < centerBin ≤ hiBin`,
the built weight row `weights[i]` is: `0` for every bin `k ≤ loBin` and every
bin `k > hiBin`; `(k - loBin - 1)/(centerBin - loBin)` on
`loBin < k ≤ centerBin`, rising with slope `1/(centerBin - loBin)`;
`1 - (k - centerBin - 1)/(hiBin - centerBin)` on `centerBin < k ≤ hiBin`,
falling with slope `1/(hiBin - centerBin)`. Consequently the value at
`centerBin` is `1 - 1/(centerBin - loBin)`, not `1.0`; the peak `1.0` is
reached one bin above `centerBin` (when that bin is still inside the
support); and at an integer bin equal to `hiBin` the weight is
`1/(hiBin - centerBin)`, not `0` — the triangle is shifted one bin to the
right of the one described by the spec. -/
theorem fbank_triangle (fft nb : ℕ) (lo hi : ℤ) (_hhi : hi ≤ 8000) (_hnb : nb ≠ 0)
    (i : ℕ) (_hin : i < nb) (l c : ℕ)
    (hl : fLoI fft nb lo hi i = (l : ℤ)) (hc : fCenterI fft nb lo hi i = (c : ℤ))
    (hlc : l < c) (hcH : (c : ℝ) ≤ fHiR fft nb lo hi i) :
    (∀ k : ℕ, k ≤ l → (calcMelFB fft nb lo hi).fbank i k = 0) ∧
    (∀ k : ℕ, fHiR fft nb lo hi i < (k : ℝ) → (calcMelFB fft nb lo hi).fbank i k = 0) ∧
    (∀ k : ℕ, l < k → k ≤ c →
      (calcMelFB fft nb lo hi).fbank i k = ((k : ℝ) - l - 1) / ((c : ℝ) - l)) ∧
    (∀ k : ℕ, c < k → (k : ℝ) ≤ fHiR fft nb lo hi i →
      (calcMelFB fft nb lo hi).fbank i k =
        1 - ((k : ℝ) - c - 1) / (fHiR fft nb lo hi i - c)) ∧
    (calcMelFB fft nb lo hi).fbank i c = 1 - 1 / ((c : ℝ) - l) ∧
    ((c : ℝ) + 1 ≤ fHiR fft nb lo hi i → (calcMelFB fft nb lo hi).fbank i (c + 1) = 1) := by
  have hfb : ∀ k, (calcMelFB fft nb lo hi).fbank i k
      = bankW ((l : ℕ) : ℝ) ((c : ℕ) : ℝ) (fHiR fft nb lo hi i) k := by
    intro k
    show bankW (fLoR fft nb lo hi i) ((fCenterI fft nb lo hi i : ℤ) : ℝ)
      (fHiR fft nb lo hi i) k = _
    rw [fLoR, hl, hc]
    push_cast
    rfl
  have hne : ((c : ℝ) - l) ≠ 0 := by
    have : (l : ℝ) < (c : ℝ) := Nat.cast_lt.mpr hlc
    linarith
  refine ⟨?_, ?_, ?_, ?_, ?_, ?_⟩
  · intro k hk
    rw [hfb]
    exact bankW_zero_left (le_of_lt hlc) hk
  · intro k hk
    rw [hfb]
    exact bankW_zero_right hcH hk
  · intro k h1 h2
    rw [hfb]
    exact bankW_rise hlc h1 h2
  · intro k h1 h2
    rw [hfb]
    exact bankW_fall hlc h1 h2
  · rw [hfb, bankW_rise hlc hlc (le_refl c)]
    field_simp
  · intro h
    rw [hfb, bankW_fall hlc (Nat.lt_succ_self c) (by push_cast; linarith)]
    push_cast
    ring_nf

/-- **C1** counterexample. At the accepted configuration
`(fftSize 16, 1 band, loCut 275, hiCut 3200)` the band has `loBin = 1`,
`centerBin = 2`, `hiBin = 6`; the built weight row is `0` at `centerBin`
(not `1.0`), reaches `1.0` at bin `3 = centerBin + 1` instead, and is `1/4`
(not `0`) at bin `hiBin = 6`. -/
theorem fbank_peak_not_at_center :
    construct 16 1 275 3200 = .ok (calcMelFB 16 1 275 3200) ∧
    fLoI 16 1 275 3200 0 = 1 ∧
    fCenterI 16 1 275 3200 0 = 2 ∧
    fHiR 16 1 275 3200 0 = 6 ∧
    (calcMelFB 16 1 275 3200).fbank 0 2 = 0 ∧
    (calcMelFB 16 1 275 3200).fbank 0 3 = 1 ∧
    (calcMelFB 16 1 275 3200).fbank 0 6 = 1 / 4 := by
  obtain ⟨h0, h1, h2, h3, h4, h5, h6, h7⟩ := bankW_A_vals
  refine ⟨?_, fLoI_A, fCenterI_A, fHiR_A, ?_, ?_, ?_⟩
  · unfold construct SAMPLE_RATE
    rw [if_neg (by norm_num), if_neg (by norm_num)]
  · rw [fbank_A]
    exact h2
  · rw [fbank_A]
    exact h3
  · rw [fbank_A]
    exact h6

/-- **C1** witness: the amended triangle theorem applied to the concrete
accepted configuration `(16, 1, 275, 3200)` with `loBin = 1 < centerBin = 2`. -/
theorem fbank_triangle_witness :
    (1 : ℕ) < 2 ∧ ((2 : ℕ) : ℝ) ≤ fHiR 16 1 275 3200 0 ∧
    (calcMelFB 16 1 275 3200).fbank 0 2 = 1 - 1 / (((2 : ℕ) : ℝ) - ((1 : ℕ) : ℝ)) :=
  ⟨by norm_num, by rw [fHiR_A]; norm_num,
    (fbank_triangle 16 1 275 3200 (by norm_num) (by norm_num) 0 (by norm_num) 1 2
      (by rw [fLoI_A]; norm_num) (by rw [fCenterI_A]; norm_num) (by norm_num)
      (by rw [fHiR_A]; norm_num)).2.2.2.2.1⟩

/-- **C2**: the failing input `(fftSize 256, 1 band, loCut 0, hiCut 8000)` is
accepted by the constructor, yet `ceil(hiBin[0]) = 255` exceeds
`fbSize = 128`: `applyMelFB` computes `filterSize = 255` and reads
`fbank[0][0..254]` and `spectrogramm[window][0..254]`, though each weight row
only has `fbSize = 128` entries and frames are only guaranteed `fbSize`
values — out of bounds, contradicting the claimed in-bounds invariant. -/
theorem maxFilterSize_exceeds_fbSize :
    construct 256 1 0 8000 = .ok (calcMelFB 256 1 0 8000) ∧
    (calcMelFB 256 1 0 8000).fbSize = 128 ∧
    maxFilterSize (calcMelFB 256 1 0 8000) = 255 ∧
    filterSize (calcMelFB 256 1 0 8000) 0 = 255 ∧
    loF (calcMelFB 256 1 0 8000) 0 = 0 ∧
    ¬(⌈(calcMelFB 256 1 0 8000).fHi 0⌉ ≤ ((calcMelFB 256 1 0 8000).fbSize : ℤ)) := by
  have hHi : (calcMelFB 256 1 0 8000).fHi 0 = 255 := fHiR_C
  have hLo : (calcMelFB 256 1 0 8000).fLo 0 = 0 := fLoR_C
  have hceil : ⌈(255 : ℝ)⌉ = 255 := by
    rw [show (255 : ℝ) = ((255 : ℤ) : ℝ) by norm_num, Int.ceil_intCast]
  have hsize : (calcMelFB 256 1 0 8000).fbSize = 128 := fbSizeOf_twofiftysix
  refine ⟨?_, hsize, ?_, ?_, ?_, ?_⟩
  · unfold construct SAMPLE_RATE
    rw [if_neg (by norm_num), if_neg (by norm_num)]
  · unfold maxFilterSize
    rw [show (calcMelFB 256 1 0 8000).numFilterBanks - 1 = 0 from rfl, hHi, hLo, hceil,
      Int.floor_zero]
    omega
  · unfold filterSize
    rw [hHi, hLo, hceil, Int.floor_zero]
    omega
  · unfold loF
    rw [hLo, Int.floor_zero]
  · rw [hHi, hceil, hsize]
    norm_num

/-- **C3**: construction fails exactly when `hiCut > 8000` (the sample rate)
or `numBands = 0`, with the two exception strings of the source; in the
failure cases no filterbank is produced, and in every other case construction
returns the fully built filterbank. -/
theorem construct_spec (fft nb : ℕ) (lo hi : ℤ) :
    ((∃ e, construct fft nb lo hi = .error e) ↔ (8000 < hi ∨ nb = 0)) ∧
    (8000 < hi → construct fft nb lo hi = .error "HiCut Parameter too high") ∧
    (¬(8000 < hi) → nb = 0 →
      construct fft nb lo hi = .error "Number of Filterbanks is zero") ∧
    (¬(8000 < hi ∨ nb = 0) → construct fft nb lo hi = .ok (calcMelFB fft nb lo hi)) := by
  have hcast : (SAMPLE_RATE < (hi : ℝ)) ↔ ((8000 : ℤ) < hi) := by
    unfold SAMPLE_RATE
    exact_mod_cast Iff.rfl
  have herr1 : 8000 < hi → construct fft nb lo hi = .error "HiCut Parameter too high" := by
    intro h1
    unfold construct
    rw [if_pos (hcast.mpr h1)]
  have herr2 : ¬(8000 < hi) → nb = 0 →
      construct fft nb lo hi = .error "Number of Filterbanks is zero" := by
    intro h1 h2
    unfold construct
    rw [if_neg (fun hh => h1 (hcast.mp hh)), if_pos h2]
  have hok : ¬(8000 < hi ∨ nb = 0) →
      construct fft nb lo hi = .ok (calcMelFB fft nb lo hi) := by
    intro h
    unfold construct
    rw [if_neg (fun hh => h (Or.inl (hcast.mp hh))), if_neg (fun hh => h (Or.inr hh))]
  refine ⟨⟨?_, ?_⟩, herr1, herr2, hok⟩
  · rintro ⟨e, he⟩
    by_contra hcon
    rw [hok hcon] at he
    simp at he
  · rintro (h | h)
    · exact ⟨_, herr1 h⟩
    · by_cases h1 : 8000 < hi
      · exact ⟨_, herr1 h1⟩
      · exact ⟨_, herr2 h1 h⟩

/-- **C3** witness: the constructor at three concrete configurations —
accepted, zero bands, and `hiCut` above the sample rate. -/
theorem construct_spec_witness :
    construct 256 4 300 3400 = .ok (calcMelFB 256 4 300 3400) ∧
    construct 256 0 300 3400 = .error "Number of Filterbanks is zero" ∧
    construct 256 4 300 9000 = .error "HiCut Parameter too high" :=
  ⟨(construct_spec 256 4 300 3400).2.2.2 (by rintro (h | h) <;> omega),
   (construct_spec 256 0 300 3400).2.2.1 (by omega) rfl,
   (construct_spec 256 4 300 9000).2.1 (by omega)⟩

theorem fLoR_A : fLoR 16 1 275 3200 0 = 1 := by
  unfold fLoR
  rw [fLoI_A]
  norm_num

/-- **C4**: the sparse bounded-support path of `applyMelFB` is *not*
equivalent to the dense full-width dot product. At the accepted configuration
`(16, 1, 275, 3200)` with a single all-ones frame the band has support
`loBin = 1`, `hiBin = 6`, so `filterSize = ceil(6) - floor(1) = 5` and the
copied slice covers bins `1..5` only: bin `6 = hiBin` still carries weight
`1/4` (the triangle's last falling step) but is dropped. The sparse sum is
`9/4`; the dense reference gives `5/2`. -/
theorem bandSum_ne_denseBandSum :
    bandSum (calcMelFB 16 1 275 3200) ⟨1, fun _ _ => 1⟩ 0 0 = 9 / 4 ∧
    denseBandSum (calcMelFB 16 1 275 3200) ⟨1, fun _ _ => 1⟩ 0 0 = 5 / 2 ∧
    bandSum (calcMelFB 16 1 275 3200) ⟨1, fun _ _ => 1⟩ 0 0 ≠
      denseBandSum (calcMelFB 16 1 275 3200) ⟨1, fun _ _ => 1⟩ 0 0 := by
  have hfloor1 : ⌊(1 : ℝ)⌋ = 1 := by
    rw [show (1 : ℝ) = ((1 : ℤ) : ℝ) by norm_num, Int.floor_intCast]
  have hceil6 : ⌈(6 : ℝ)⌉ = 6 := by
    rw [show (6 : ℝ) = ((6 : ℤ) : ℝ) by norm_num, Int.ceil_intCast]
  have hHi : (calcMelFB 16 1 275 3200).fHi 0 = 6 := fHiR_A
  have hLo : (calcMelFB 16 1 275 3200).fLo 0 = 1 := fLoR_A
  have hfs : filterSize (calcMelFB 16 1 275 3200) 0 = 5 := by
    unfold filterSize
    rw [hHi, hLo, hceil6, hfloor1]
    omega
  have hloF : loF (calcMelFB 16 1 275 3200) 0 = 1 := by
    unfold loF
    rw [hLo, hfloor1]
  have hread : ∀ n : ℕ, bankRead (calcMelFB 16 1 275 3200) 0 (n : ℤ) =
      bankW ((1 : ℕ) : ℝ) ((2 : ℕ) : ℝ) 6 n := by
    intro n
    unfold bankRead
    rw [if_pos (Int.natCast_nonneg n), Int.toNat_natCast, fbank_A]
  obtain ⟨h0, h1, h2, h3, h4, h5, h6, h7⟩ := bankW_A_vals
  have hsp : bandSum (calcMelFB 16 1 275 3200) ⟨1, fun _ _ => 1⟩ 0 0 = 9 / 4 := by
    unfold bandSum
    rw [hfs, hloF]
    show ∑ j ∈ Finset.range 5,
      (1 : ℝ) * bankRead (calcMelFB 16 1 275 3200) 0 (1 + (j : ℤ)) = 9 / 4
    rw [Finset.sum_range_succ, Finset.sum_range_succ, Finset.sum_range_succ,
      Finset.sum_range_succ, Finset.sum_range_succ, Finset.sum_range_zero]
    rw [show ((1 : ℤ) + ((0 : ℕ) : ℤ)) = ((1 : ℕ) : ℤ) by norm_num,
      show ((1 : ℤ) + ((1 : ℕ) : ℤ)) = ((2 : ℕ) : ℤ) by norm_num,
      show ((1 : ℤ) + ((2 : ℕ) : ℤ)) = ((3 : ℕ) : ℤ) by norm_num,
      show ((1 : ℤ) + ((3 : ℕ) : ℤ)) = ((4 : ℕ) : ℤ) by norm_num,
      show ((1 : ℤ) + ((4 : ℕ) : ℤ)) = ((5 : ℕ) : ℤ) by norm_num,
      hread 1, hread 2, hread 3, hread 4, hread 5, h1, h2, h3, h4, h5]
    norm_num
  have hdn : denseBandSum (calcMelFB 16 1 275 3200) ⟨1, fun _ _ => 1⟩ 0 0 = 5 / 2 := by
    unfold denseBandSum
    rw [show (calcMelFB 16 1 275 3200).fbSize = 8 from fbSizeOf_sixteen]
    show ∑ k ∈ Finset.range 8,
      (1 : ℝ) * (calcMelFB 16 1 275 3200).fbank 0 k = 5 / 2
    rw [Finset.sum_range_succ, Finset.sum_range_succ, Finset.sum_range_succ,
      Finset.sum_range_succ, Finset.sum_range_succ, Finset.sum_range_succ,
      Finset.sum_range_succ, Finset.sum_range_succ, Finset.sum_range_zero]
    rw [fbank_A, fbank_A, fbank_A, fbank_A, fbank_A, fbank_A, fbank_A, fbank_A,
      h0, h1, h2, h3, h4, h5, h6, h7]
    norm_num
  refine ⟨hsp, hdn, ?_⟩
  rw [hsp, hdn]
  norm_num

/-- **C5**: each `centerBin[i]` is the rounded bin index of
`melToFrequency(frequencyToMel(loCut) + (i+1)·delta)` with
`delta = (frequencyToMel(hiCut) - frequencyToMel(loCut))/(numBands+1)`;
`loBin[0]` is the rounded bin index of `loCut`; and bands are contiguous:
`hiBin[i] = centerBin[i+1]` and `loBin[i+1] = centerBin[i]` for every
adjacent pair of bands. -/
theorem boundary_propagation (fft nb : ℕ) (lo hi : ℤ) :
    (∀ i, i < nb → fCenterI fft nb lo hi i =
      croundI (melToLin (linToMel lo + ((i : ℝ) + 1) *
        ((linToMel hi - linToMel lo) / ((nb : ℝ) + 1))) / binSize fft)) ∧
    fLoI fft nb lo hi 0 = croundI ((lo : ℝ) / binSize fft) ∧
    (∀ i, i + 1 < nb → fHiR fft nb lo hi i = (fCenterI fft nb lo hi (i + 1) : ℝ)) ∧
    (∀ i, i + 1 < nb → fLoI fft nb lo hi (i + 1) = fCenterI fft nb lo hi i) := by
  refine ⟨?_, rfl, ?_, fun i _ => rfl⟩
  · intro i _
    unfold fCenterI
    rw [melCenter_eq]
    rfl
  · intro i hi1
    unfold fHiR
    rw [if_neg (by omega)]

/-- **C5** witness: the propagation equations at the accepted configuration
`(256, 4, 300, 3400)`, band pair `(0, 1)`. -/
theorem boundary_propagation_witness :
    (0 : ℕ) < 4 ∧ (0 : ℕ) + 1 < 4 ∧
    fCenterI 256 4 300 3400 0 =
      croundI (melToLin (linToMel ((300 : ℤ) : ℝ) + ((0 : ℝ) + 1) *
        ((linToMel ((3400 : ℤ) : ℝ) - linToMel ((300 : ℤ) : ℝ)) / ((4 : ℝ) + 1))) /
          binSize 256) ∧
    fHiR 256 4 300 3400 0 = (fCenterI 256 4 300 3400 1 : ℝ) ∧
    fLoI 256 4 300 3400 1 = fCenterI 256 4 300 3400 0 :=
  ⟨by norm_num, by norm_num,
   by
     have h := (boundary_propagation 256 4 300 3400).1 0 (by norm_num)
     push_cast at h ⊢
     exact h,
   (boundary_propagation 256 4 300 3400).2.2.1 0 (by norm_num),
   (boundary_propagation 256 4 300 3400).2.2.2 0 (by norm_num)⟩

/-- **C6**: the last band's upper boundary is stored as the unrounded value
`hiCut / binSizeHz`, while every other stored boundary — `loBin[0]` and every
centre bin — is `roundf` of its unrounded value, i.e. a nearest bin index
(ties away from zero), always within half a bin of the unrounded value. -/
theorem last_band_unrounded (fft nb : ℕ) (lo hi : ℤ) :
    fHiR fft nb lo hi (nb - 1) = (hi : ℝ) / binSize fft ∧
    fLoR fft nb lo hi 0 = croundf ((lo : ℝ) / binSize fft) ∧
    (∀ i, (fCenterI fft nb lo hi i : ℝ) =
      croundf (melToLin (melCenter nb lo hi i) / binSize fft)) ∧
    (∀ x : ℝ, |croundf x - x| ≤ 1 / 2) := by
  refine ⟨?_, rfl, fun i => rfl, abs_croundf_sub⟩
  unfold fHiR
  rw [if_pos rfl]

/-- **C7** (amended). For accepted configurations with `fftSize ≥ 2` and
`0 ≤ loCut < hiCut`: the unrounded centre frequencies lie strictly between
`loCut` and `hiCut` and are strictly increasing in the band index; after
rounding to bin indices only the weak inequalities survive —
`loBin[i] ≤ centerBin[i]` for every band, `centerBin[i] ≤ hiBin[i]` for every
non-final band, and `centerBin` is nondecreasing. The strict inequalities of
the claim can fail, because rounding may collapse adjacent boundaries onto
the same bin. -/
theorem boundary_weak_mono (fft nb : ℕ) (lo hi : ℤ) (hfft : 2 ≤ fft)
    (_hnb : nb ≠ 0) (hlo : 0 ≤ lo) (hlohi : lo < hi) (_hhi : hi ≤ 8000) :
    (∀ i, (lo : ℝ) < melToLin (melCenter nb lo hi i)) ∧
    (∀ i, i < nb → melToLin (melCenter nb lo hi i) < (hi : ℝ)) ∧
    (∀ i, melToLin (melCenter nb lo hi i) < melToLin (melCenter nb lo hi (i + 1))) ∧
    (∀ i j, i ≤ j → fCenterI fft nb lo hi i ≤ fCenterI fft nb lo hi j) ∧
    (∀ i, fLoI fft nb lo hi i ≤ fCenterI fft nb lo hi i) ∧
    (∀ i, i + 1 < nb → (fCenterI fft nb lo hi i : ℝ) ≤ fHiR fft nb lo hi i) := by
  have hlo' : (0 : ℝ) ≤ (lo : ℝ) := by exact_mod_cast hlo
  have hhi0 : (0 : ℝ) ≤ (hi : ℝ) := by
    have : (0 : ℤ) ≤ hi := le_of_lt (lt_of_le_of_lt hlo hlohi)
    exact_mod_cast this
  refine ⟨?_, ?_, ?_, fun i j hij => fCenterI_mono hfft hlo hlohi hij,
    fLoI_le_fCenterI hfft hlo hlohi, ?_⟩
  · intro i
    have h1 := @melCenter_gt_lo nb lo hi hlo hlohi i
    have h2 := melToLin_lt_melToLin h1
    rwa [melToLin_linToMel hlo'] at h2
  · intro i hin
    have h1 := melCenter_lt_hi hlo hlohi hin
    have h2 := melToLin_lt_melToLin h1
    rwa [melToLin_linToMel hhi0] at h2
  · intro i
    apply melToLin_lt_melToLin
    rw [melCenter_succ]
    have := @delta_pos nb lo hi hlo hlohi
    linarith
  · intro i hin
    unfold fHiR
    rw [if_neg (by omega)]
    exact_mod_cast fCenterI_mono hfft hlo hlohi (Nat.le_succ i)

/-- **C7** counterexample: the accepted configuration
`(fftSize 256, 2 bands, loCut 2100, hiCut 2100)` gives `delta = 0`, so both
centre bins and `loBin[0]` all round to bin `67`: neither
`loBin[0] < centerBin[0]` nor the strict growth of `centerBin` holds. -/
theorem centerBins_collapse :
    construct 256 2 2100 2100 = .ok (calcMelFB 256 2 2100 2100) ∧
    fLoI 256 2 2100 2100 0 = 67 ∧
    fCenterI 256 2 2100 2100 0 = 67 ∧
    fCenterI 256 2 2100 2100 1 = 67 ∧
    ¬(fLoI 256 2 2100 2100 0 < fCenterI 256 2 2100 2100 0 ∧
      fCenterI 256 2 2100 2100 0 < fCenterI 256 2 2100 2100 1) := by
  refine ⟨?_, fLoI_B, fCenterI_B 0, fCenterI_B 1, ?_⟩
  · unfold construct SAMPLE_RATE
    rw [if_neg (by norm_num), if_neg (by norm_num)]
  · rw [fLoI_B, fCenterI_B 0, fCenterI_B 1]
    omega

/-- **C7** witness: the amended monotonicity theorem at the accepted
configuration `(256, 4, 300, 3400)`. -/
theorem boundary_weak_mono_witness :
    (2 : ℕ) ≤ 256 ∧ (0 : ℤ) ≤ 300 ∧ (300 : ℤ) < 3400 ∧
    (∀ i, fLoI 256 4 300 3400 i ≤ fCenterI 256 4 300 3400 i) :=
  ⟨by norm_num, by norm_num, by norm_num,
    (boundary_weak_mono 256 4 300 3400 (by norm_num) (by norm_num) (by norm_num)
      (by norm_num) (by norm_num)).2.2.2.2.1⟩

/-- **C8**: for every `fftSize > 0`, `fbSize` equals half of the smallest
power of two that is at least `fftSize`, and
`binSizeHz = sampleRate / (2·fbSize - 1)`. -/
theorem fbSize_spec (n : ℕ) (hn : 0 < n) :
    fbSizeOf n = 2 ^ Nat.clog 2 n / 2 ∧
    n ≤ 2 ^ Nat.clog 2 n ∧
    (∀ m : ℕ, n ≤ 2 ^ m → 2 ^ Nat.clog 2 n ≤ 2 ^ m) ∧
    binSize n = SAMPLE_RATE / (2 * (fbSizeOf n : ℝ) - 1) := by
  refine ⟨fbSizeOf_eq_clog hn, Nat.le_pow_clog (by norm_num) n, ?_, ?_⟩
  · intro m hm
    exact Nat.pow_le_pow_right (by norm_num)
      ((Nat.le_pow_iff_clog_le (by norm_num)).mp hm)
  · unfold binSize
    rw [show ((fbSizeOf n : ℝ) * 2 - 1) = (2 * (fbSizeOf n : ℝ) - 1) by ring]

/-- **C8** witness: the derived sizes at `fftSize = 256`. -/
theorem fbSize_spec_witness :
    (0 : ℕ) < 256 ∧ fbSizeOf 256 = 2 ^ Nat.clog 2 256 / 2 :=
  ⟨by norm_num, (fbSize_spec 256 (by norm_num)).1⟩

/-- **C9**: with the exact formulas of the source —
`frequencyToMel(f) = 2595·log10(1 + f/700)` and
`melToFrequency(m) = 700·(10^(m/2595) - 1)` — the two maps are mutual
inverses on `f ≥ 0`, exactly over the reals. -/
theorem mel_maps_inverse (f : ℝ) (hf : 0 ≤ f) :
    melToLin (linToMel f) = f ∧
    linToMel f = 2595 * (Real.log (1 + f / 700) / Real.log 10) ∧
    melToLin f = 700 * ((10 : ℝ) ^ (f / 2595) - 1) :=
  ⟨melToLin_linToMel hf, rfl, rfl⟩

/-- **C9** witness: the round trip at `f = 300`. -/
theorem mel_maps_inverse_witness :
    (0 : ℝ) ≤ 300 ∧ melToLin (linToMel 300) = 300 :=
  ⟨by norm_num, (mel_maps_inverse 300 (by norm_num)).1⟩

/-- **C10**: `applyMelFB` is a pure function of the filterbank and the
spectrogram. Each in-range output cell receives `bandSum`, independently of
the previous contents of the output buffer, and applying it a second time
over its own result writes identical values (idempotence); out-of-range cells
are untouched. The filterbank itself is never modified — in this model it is
an immutable value that `applyMelFB` only reads. -/
theorem applyMelFB_pure (fb : MelFb) (stft : Stft) (out out' : ℕ → ℕ → ℝ)
    (w b : ℕ) (hw : w < stft.NoOfWindows) (hb : b < fb.numFilterBanks) :
    applyMelFB fb stft out w b = applyMelFB fb stft out' w b ∧
    applyMelFB fb stft out w b = bandSum fb stft w b ∧
    applyMelFB fb stft (applyMelFB fb stft out) = applyMelFB fb stft out := by
  refine ⟨?_, ?_, ?_⟩
  · unfold applyMelFB
    rw [if_pos ⟨hw, hb⟩, if_pos ⟨hw, hb⟩]
  · unfold applyMelFB
    rw [if_pos ⟨hw, hb⟩]
  · funext w' b'
    show (if w' < stft.NoOfWindows ∧ b' < fb.numFilterBanks then bandSum fb stft w' b'
      else applyMelFB fb stft out w' b') = applyMelFB fb stft out w' b'
    by_cases h : w' < stft.NoOfWindows ∧ b' < fb.numFilterBanks
    · rw [if_pos h]
      show _ = if w' < stft.NoOfWindows ∧ b' < fb.numFilterBanks then
        bandSum fb stft w' b' else out w' b'
      rw [if_pos h]
    · rw [if_neg h]

/-- **C10** witness: two applications at a concrete filterbank, spectrogram
and two different prior output buffers agree on the written cell. -/
theorem applyMelFB_pure_witness :
    (0 : ℕ) < 1 ∧
    applyMelFB (calcMelFB 16 1 275 3200) ⟨1, fun _ _ => 1⟩ (fun _ _ => 0) 0 0 =
      applyMelFB (calcMelFB 16 1 275 3200) ⟨1, fun _ _ => 1⟩ (fun _ _ => 5) 0 0 :=
  ⟨Nat.one_pos,
    (applyMelFB_pure (calcMelFB 16 1 275 3200) ⟨1, fun _ _ => 1⟩ (fun _ _ => 0)
      (fun _ _ => 5) 0 0 Nat.one_pos Nat.one_pos).1⟩

end MelFB

end
